import Mathlib

/-!
Verification of the `go_ml` regression module (`regression.go`) against its
natural-language specification.

The Go code is shallowly embedded over exact rationals `ℚ` (the claims under
study are algebraic identities and control-flow properties, none of which
depend on floating-point rounding).  The transcendental helpers `sigmoid` and
`math.Log` are passed as abstract function parameters `sig lg : ℚ → ℚ`: every
theorem below is proved for all such functions, hence in particular for the
real sigmoid and logarithm.  The external optimizer `Fmincg` (fmincg.go, not
part of the sources under study) is likewise a parameter `fm`.

Matrix primitives mirror the external `go_matrix` dependency (spec §2
"MatrixOps"): standard dense operations on row-major `List (List ℚ)`.
-/

namespace GoML

/-- Matrices, row major, as in `go_matrix`. -/
abbrev Mat := List (List ℚ)

/-- Dot product of two vectors (truncating at the shorter one, as the Go loops
`for i := 0; i < len(x); i++` do on conforming inputs). -/
def dot (a b : List ℚ) : ℚ := (List.zipWith (fun x y => x * y) a b).sum

/-- Column `j` of a matrix: entry `i` is `A[i][j]` (out-of-range reads default
to 0; never exercised on the conforming shapes the theorems hypothesise). -/
def col (A : Mat) (j : ℕ) : List ℚ := A.map (fun r => r.getD j 0)

/-- Number of columns of a matrix, read off the first row as `go_matrix` does
(`len(m[0])`). -/
def ncols (A : Mat) : ℕ := (A.headD []).length

/-- `mt.Mult`: standard matrix product, `result[i][j] = Σ_k A[i][k]·B[k][j]`. -/
def Mult (A B : Mat) : Mat :=
  A.map (fun r => (List.range (ncols B)).map (fun j => dot r (col B j)))

/-- `mt.Trans`: matrix transpose. -/
def Trans (A : Mat) : Mat := (List.range (ncols A)).map (col A)

/-- `mt.Apply`: element-wise map. -/
def Apply (A : Mat) (f : ℚ → ℚ) : Mat := A.map (List.map f)

/-- `mt.Sub`: element-wise difference. -/
def Sub (A B : Mat) : Mat := List.zipWith (List.zipWith (fun x y => x - y)) A B

/-- `mt.Sum`: element-wise sum. -/
def SumMat (A B : Mat) : Mat := List.zipWith (List.zipWith (fun x y => x + y)) A B

/-- `mt.MultBy`: multiply every element by a scalar. -/
def MultBy (A : Mat) (c : ℚ) : Mat := A.map (List.map (fun v => v * c))

/-- `mt.SumAll`: sum of all elements. -/
def SumAll (A : Mat) : ℚ := (A.map List.sum).sum

/-- Modelled from the spec: helper `powTwo` (x ↦ x²) used by both cost
functions; its definition lives in the repository outside `regression.go`.
Spec §4.2: "sum of squares". -/
def powTwo (x : ℚ) : ℚ := x * x

/-- Modelled from the spec: helper `neg` (x ↦ −x), the `−Yᵗ` of spec §4.2. -/
def neg (x : ℚ) : ℚ := -x

/-- Modelled from the spec: helper `oneMinus` (x ↦ 1−x), the `(1−Y)` of spec
§4.2. -/
def oneMinus (x : ℚ) : ℚ := 1 - x

/-- The `Regression` struct of regression.go. -/
structure Regression where
  X : Mat
  Y : List ℚ
  Theta : List ℚ
  LinearReg : Bool
deriving DecidableEq, Repr

/-- Gradients have the Go type `[][][]float64`. -/
abbrev GradT := List Mat

/-- `LinearHipotesis`: dot product of a row with `Theta`. -/
def LinearHipotesis (rg : Regression) (x : List ℚ) : ℚ := dot x rg.Theta

/-- `LogisticHipotesis`: sigmoid of the dot product; `sig` abstracts the
transcendental `sigmoid`. -/
def LogisticHipotesis (sig : ℚ → ℚ) (rg : Regression) (x : List ℚ) : ℚ :=
  sig (dot x rg.Theta)

/-- `linearRegCostFunction`, translated line by line from regression.go
(lines 75–92).  `calcGrad` is received but, as in the source, never read:
the gradient is computed unconditionally. -/
def linearRegCostFunction (rg : Regression) (lambda : ℚ) (calcGrad : Bool) :
    ℚ × GradT :=
  let auxTheta := rg.Theta
  let theta : Mat := [auxTheta]
  let m : ℚ := (rg.X.length : ℚ)
  let y : Mat := [rg.Y]
  let pred := Trans (Mult rg.X (Trans theta))
  let errors := SumAll (Apply (Sub pred y) powTwo) / (2 * m)
  let regTerm := lambda / (2 * m) * SumAll (Apply [rg.Theta.tail] powTwo)
  let j := errors + regTerm
  let grad : GradT :=
    [SumMat (MultBy (Mult (Sub pred y) rg.X) (1 / m)) (MultBy theta (lambda / m))]
  (j, grad)

/-- `logisticRegCostFunction`, translated line by line from regression.go
(lines 145–167).  `sig` and `lg` abstract `sigmoid` and `math.Log`;
`theta[0][0] = 0` becomes `auxTheta.set 0 0`. -/
def logisticRegCostFunction (sig lg : ℚ → ℚ) (rg : Regression) (lambda : ℚ)
    (calcGrad : Bool) : ℚ × GradT :=
  let auxTheta := rg.Theta
  let theta : Mat := [auxTheta]
  let m : ℚ := (rg.X.length : ℚ)
  let y : Mat := [rg.Y]
  let hx := Apply (Mult theta (Trans rg.X)) sig
  let j0 :=
    ((Mult (Apply y neg) (Trans (Apply hx lg))).getD 0 []).getD 0 0 -
      ((Mult (Apply y oneMinus) (Trans (Apply (Apply hx oneMinus) lg))).getD 0
          []).getD 0 0
  let j1 := j0 / m
  let thetaZ : Mat := [auxTheta.set 0 0]
  let j := j1 + lambda / (2 * m) * SumAll (Apply thetaZ powTwo)
  let gradAux := MultBy (Mult (Sub hx y) rg.X) (1 / m)
  let grad : GradT := [SumMat gradAux (MultBy thetaZ (lambda / m))]
  (j, grad)

/-- Result of `CostFunction`: a cost/gradient pair, a descriptive error value,
or a Go runtime panic.  The `panic` constructor records that the evaluation of
`len(rg.X[0])` on line 39 crashes when `X` is empty. -/
inductive CFResult where
  | panic : CFResult
  | err : String → CFResult
  | ok : ℚ → GradT → CFResult
deriving DecidableEq, Repr

/-- `CostFunction` (regression.go lines 30–54): two dimension checks, then the
variant selected by `LinearReg`.  The second check reads `len(rg.X[0])`, which
panics when `X` is empty, hence the `CFResult.panic` branch. -/
def CostFunction (sig lg : ℚ → ℚ) (rg : Regression) (lambda : ℚ)
    (calcGrad : Bool) : CFResult :=
  if rg.Y.length ≠ rg.X.length then
    .err ("the number of test cases (X) " ++ toString rg.X.length ++
      " doesn't corresponds with the number of values (Y) " ++
      toString rg.Y.length)
  else
    match rg.X with
    | [] => .panic
    | x0 :: _ =>
      if rg.Theta.length ≠ x0.length then
        .err ("the Theta arg has a lenght of " ++ toString rg.Theta.length ++
          " and the input data " ++ toString x0.length)
      else if rg.LinearReg then
        let p := linearRegCostFunction rg lambda calcGrad
        .ok p.1 p.2
      else
        let p := logisticRegCostFunction sig lg rg lambda calcGrad
        .ok p.1 p.2

/-- The cost a Go caller that ignores the error sees: on the error path the
named return `j` keeps its zero value.  (On the panic path the Go program
crashes; the 0 here is never observed, and all theorems about callers
hypothesise away that branch.) -/
def getJ : CFResult → ℚ
  | .ok j _ => j
  | .err _ => 0
  | .panic => 0

/-- Number of rows `Accuracy` counts as correct: prediction ≥ 0.5 AND label
equal to 1 (regression.go lines 173–181). -/
def accuracyNumerator (sig : ℚ → ℚ) (rg : Regression) : ℕ :=
  (rg.X.zip rg.Y).countP
    (fun p => decide ((0.5 : ℚ) ≤ LogisticHipotesis sig rg p.1) &&
      decide (p.2 = (1 : ℚ)))

/-- `Accuracy` (regression.go lines 169–184): correct count divided by the row
count.  In Go both operands are `float64`; with zero rows the division is
`0.0/0.0`. -/
def Accuracy (sig : ℚ → ℚ) (rg : Regression) : ℚ :=
  (accuracyNumerator sig rg : ℚ) / (rg.X.length : ℚ)

/-- `shuffle` (regression.go lines 266–282) for a given permutation `perm`
(the result of `rand.Perm(len(rg.X))`): the row written at position `v` is the
row read at the position `i` with `perm[i] = v`, i.e. at `perm.indexOf v`.
`X` and `Y` move under the same index map.  Note the Go constructor sets only
`X` and `Y`; `LinearReg` is left at its zero value `false`, and the `Theta`
slice header is copied (`shuffledData.Theta = rg.Theta`). -/
def shuffle (perm : List ℕ) (rg : Regression) : Regression :=
  { X := (List.range rg.X.length).map (fun v => rg.X.getD (perm.indexOf v) [])
    Y := (List.range rg.Y.length).map (fun v => rg.Y.getD (perm.indexOf v) 0)
    Theta := rg.Theta
    LinearReg := false }

/-- The fixed candidate list of regularization strengths in `MinimizeCost`
(regression.go line 192). -/
def mcLambdas : List ℚ :=
  [0.0, 0.001, 0.003, 0.01, 0.03, 0.1, 0.3, 1, 3, 10, 30, 100, 300]

/-- State threaded through the candidate loop of `MinimizeCost`:
`bestJ` starts at `math.Inf(1)` (modelled as `⊤ : WithTop ℚ`), `bestA` and
`bestLambda` at 0, and `theta` is the contents of `trainingData.Theta`. -/
structure MCState where
  bestJ : WithTop ℚ
  bestA : ℚ
  bestLambda : ℚ
  theta : List ℚ
deriving DecidableEq, Repr

/-- One iteration of the candidate loop (regression.go lines 216–235):
`copy(trainingData.Theta, initTheta)`, run `fm` (the external `Fmincg`) for 10
iterations, evaluate the cost without gradient, update `bestJ`, evaluate
`Accuracy`, update `bestA`/`bestLambda` on strict improvement. -/
def mcStep (fm : Regression → ℚ → ℕ → List ℚ) (sig lg : ℚ → ℚ)
    (td : Regression) (initTheta : List ℚ) (s : MCState) (posLambda : ℚ) :
    MCState :=
  let theta1 := fm { td with Theta := initTheta } posLambda 10
  let j := getJ (CostFunction sig lg { td with Theta := theta1 } posLambda false)
  let bestJ1 := if s.bestJ > (j : WithTop ℚ) then (j : WithTop ℚ) else s.bestJ
  let accuracy := Accuracy sig { td with Theta := theta1 }
  if accuracy > s.bestA then
    ⟨bestJ1, accuracy, posLambda, theta1⟩
  else
    ⟨bestJ1, s.bestA, s.bestLambda, theta1⟩

/-- The full candidate loop of `MinimizeCost`. -/
def mcLoop (fm : Regression → ℚ → ℕ → List ℚ) (sig lg : ℚ → ℚ)
    (td : Regression) (initTheta : List ℚ) : MCState :=
  mcLambdas.foldl (mcStep fm sig lg td initTheta) ⟨⊤, 0, 0, initTheta⟩

/-- What `MinimizeCost` returns: `(finalCost, trainingData, lambda, testData)`.
The named return `lambda` is never assigned in the Go body (only the local
`bestLambda` is), so it is its zero value 0; `testData` is likewise never
assigned and is the nil pointer, modelled as `none`. -/
structure MCOut where
  finalCost : ℚ
  trainingData : Regression
  lambda : ℚ
  testData : Option Regression
deriving DecidableEq, Repr

/-- `MinimizeCost` (regression.go lines 191–246), value level: optionally
shuffle, build `trainingData` sharing the (possibly shuffled) model's fields,
run the candidate loop, refit with the best-accuracy lambda for the full
`maxIters` budget, and recompute the cost at that lambda. -/
def MinimizeCost (fm : Regression → ℚ → ℕ → List ℚ) (sig lg : ℚ → ℚ)
    (perm : List ℕ) (orig : Regression) (maxIters : ℕ) (suffleData : Bool) :
    MCOut :=
  let rg1 := if suffleData then shuffle perm orig else orig
  let trainingData : Regression := ⟨rg1.X, rg1.Y, rg1.Theta, rg1.LinearReg⟩
  let initTheta := rg1.Theta
  let s := mcLoop fm sig lg trainingData initTheta
  let finalTheta := fm { trainingData with Theta := s.theta } s.bestLambda maxIters
  let td2 := { trainingData with Theta := finalTheta }
  let finalCost := getJ (CostFunction sig lg td2 s.bestLambda false)
  ⟨finalCost, td2, 0, none⟩

/-- The `Theta` the optimizer is started from in one candidate trial of
`MinimizeCost`: the model with `Theta` reset to `initTheta`, run for the fixed
budget of 10 iterations. -/
def trialTheta (fm : Regression → ℚ → ℕ → List ℚ) (td : Regression)
    (initTheta : List ℚ) (lam : ℚ) : List ℚ :=
  fm { td with Theta := initTheta } lam 10

/-- The `Accuracy` value one candidate trial of `MinimizeCost` produces.  It
is a function of the candidate `lam` alone (besides the fixed trial
environment): no state from earlier candidates enters. -/
def trialAccuracy (fm : Regression → ℚ → ℕ → List ℚ) (sig : ℚ → ℚ)
    (td : Regression) (initTheta : List ℚ) (lam : ℚ) : ℚ :=
  Accuracy sig { td with Theta := trialTheta fm td initTheta lam }

/-- One full candidate trial of `MinimizeCost`: the refined `Theta`, the plain
cost evaluated without gradient at the candidate lambda, and the `Accuracy`,
all on the same training data. -/
def runTrial (fm : Regression → ℚ → ℕ → List ℚ) (sig lg : ℚ → ℚ)
    (td : Regression) (initTheta : List ℚ) (lam : ℚ) : List ℚ × ℚ × ℚ :=
  let theta1 := trialTheta fm td initTheta lam
  (theta1, getJ (CostFunction sig lg { td with Theta := theta1 } lam false),
    Accuracy sig { td with Theta := theta1 })

/-- Consume one trial result `(theta, cost, accuracy)`: update `bestJ` from
the cost, update `bestA`/`bestLambda` on strict accuracy improvement. -/
def selStep (s : MCState) (lam : ℚ) (t : List ℚ × ℚ × ℚ) : MCState :=
  let bestJ1 := if s.bestJ > (t.2.1 : WithTop ℚ) then (t.2.1 : WithTop ℚ)
    else s.bestJ
  if t.2.2 > s.bestA then ⟨bestJ1, t.2.2, lam, t.1⟩
  else ⟨bestJ1, s.bestA, s.bestLambda, t.1⟩

/-- Fold the selection policy of `MinimizeCost` over a list of
`(lambda, accuracy)` pairs: keep the candidate on strict accuracy improvement
only, starting from `(bestLambda, bestA) = (0, 0)`.  The input carries no cost
information at all. -/
def bestByAccuracy (trials : List (ℚ × ℚ)) : ℚ × ℚ :=
  trials.foldl (fun b t => if t.2 > b.2 then t else b) (0, 0)

/-- The lambda the accuracy-only selection policy picks. -/
def selectByAccuracy (trials : List (ℚ × ℚ)) : ℚ := (bestByAccuracy trials).1

/-- Output of the store-level model of `MinimizeCost`: the final contents of
the `Theta` slice store, the slice identifiers held by the original model and
by `trainingData`, the result of the final full-budget optimizer run, and the
lambda it used. -/
structure MCStoreOut where
  store : List (List ℚ)
  origRef : ℕ
  trainRef : ℕ
  finalTheta : List ℚ
  bestLambda : ℚ
deriving DecidableEq, Repr

/-- Modelled from the spec: one candidate-loop iteration of `MinimizeCost`
executed against an explicit store of `Theta` slice contents.  The spec's
optimizer contract (§6) says `Fmincg` — fmincg.go, which is not among the
sources under study — "mutates model.Theta in place", so both the
`copy(trainingData.Theta, initTheta)` at the top of the loop body and the
optimizer refinement are writes to the array at `trainingData`'s slice
identifier `trainRef`. -/
def mcStepStore (fm : Regression → ℚ → ℕ → List ℚ) (sig lg : ℚ → ℚ)
    (tdX : Mat) (tdY : List ℚ) (lin : Bool) (trainRef : ℕ)
    (initTheta : List ℚ) (s : List (List ℚ) × WithTop ℚ × ℚ × ℚ)
    (posLambda : ℚ) : List (List ℚ) × WithTop ℚ × ℚ × ℚ :=
  let st1 := s.1.set trainRef initTheta
  let theta1 := fm ⟨tdX, tdY, st1.getD trainRef [], lin⟩ posLambda 10
  let st2 := st1.set trainRef theta1
  let j := getJ (CostFunction sig lg ⟨tdX, tdY, st2.getD trainRef [], lin⟩
    posLambda false)
  let bestJ1 := if s.2.1 > (j : WithTop ℚ) then (j : WithTop ℚ) else s.2.1
  let accuracy := Accuracy sig ⟨tdX, tdY, st2.getD trainRef [], lin⟩
  if accuracy > s.2.2.1 then (st2, bestJ1, accuracy, posLambda)
  else (st2, bestJ1, s.2.2.1, s.2.2.2)

/-- Modelled from the spec: `MinimizeCost` with the `Theta` slice pointers
made explicit, to settle what the original model holds after the call.  The
original model's `Theta` slice is identifier 0.  `shuffle` copies the slice
header (`shuffledData.Theta = rg.Theta`, regression.go line 279) and
`trainingData` is built with `Theta: rg.Theta` (line 204), so whether or not
shuffling is requested, the working model and `trainingData` alias
identifier 0 — `trainRef = origRef = 0`.  Under the spec's in-place optimizer
contract every `copy` and every `Fmincg` refinement, including the final
full-budget one, writes that array; the closing `rg.Theta =
trainingData.Theta` (line 240) is a pointer assignment and writes no store. -/
def MinimizeCostStore (fm : Regression → ℚ → ℕ → List ℚ) (sig lg : ℚ → ℚ)
    (perm : List ℕ) (orig : Regression) (maxIters : ℕ) (suffleData : Bool) :
    MCStoreOut :=
  let store0 := [orig.Theta]
  let origRef := 0
  let work := if suffleData then shuffle perm orig else orig
  let trainRef := origRef
  let initTheta := store0.getD trainRef []
  let res := mcLambdas.foldl
    (mcStepStore fm sig lg work.X work.Y work.LinearReg trainRef initTheta)
    (store0, ⊤, 0, 0)
  let bestLambda := res.2.2.2
  let finalTheta := fm ⟨work.X, work.Y, res.1.getD trainRef [], work.LinearReg⟩
    bestLambda maxIters
  let stFinal := res.1.set trainRef finalTheta
  ⟨stFinal, origRef, trainRef, finalTheta, bestLambda⟩

/-! ### Shape lemmas for the matrix primitives -/

lemma range_one : List.range 1 = [0] := by
  simp [List.range_succ]

lemma range_map_getD {α β : Type*} (l : List α) (d : α) (f : α → β) :
    (List.range l.length).map (fun j => f (l.getD j d)) = l.map f := by
  induction l with
  | nil => simp
  | cons a t ih =>
    rw [List.length_cons, List.range_succ_eq_map, List.map_cons, List.map_map]
    simp only [List.getD_cons_zero, List.map_cons]
    have h : (List.range t.length).map ((fun j => f ((a :: t).getD j d)) ∘ Nat.succ)
        = t.map f := by
      simpa [Function.comp_def, List.getD_cons_succ] using ih
    exact congrArg (f a :: ·) h

lemma range_getD {α : Type*} (l : List α) (d : α) :
    (List.range l.length).map (fun j => l.getD j d) = l := by
  simpa using range_map_getD l d id

lemma getD_map_lt {α β : Type*} (f : α → β) (l : List α) (j : ℕ)
    (hj : j < l.length) (d : β) (d' : α) :
    (l.map f).getD j d = f (l.getD j d') := by
  rw [List.getD_eq_getElem?_getD, List.getD_eq_getElem?_getD, List.getElem?_map,
    List.getElem?_eq_getElem hj]
  rfl

lemma getD_lt_mem {α : Type*} (l : List α) (j : ℕ) (hj : j < l.length) (d : α) :
    l.getD j d ∈ l := by
  rw [List.getD_eq_getElem?_getD, List.getElem?_eq_getElem hj]
  exact List.getElem_mem hj

lemma trans_single (v : List ℚ) :
    Trans [v] = (List.range v.length).map (fun j => [v.getD j 0]) := by
  simp [Trans, ncols, col]

lemma ncols_trans_cons (a : ℚ) (t : List ℚ) : ncols (Trans [a :: t]) = 1 := by
  rw [trans_single]
  simp [ncols, List.range_succ_eq_map]

lemma col_trans_single (v : List ℚ) : col (Trans [v]) 0 = v := by
  rw [trans_single, col, List.map_map]
  simpa [Function.comp_def] using range_getD v 0

lemma mult_single_col (X : Mat) (v : List ℚ) (hv : v ≠ []) :
    Mult X (Trans [v]) = X.map (fun r => [dot r v]) := by
  obtain ⟨a, t, rfl⟩ := List.exists_cons_of_ne_nil hv
  have h0 := col_trans_single (a :: t)
  simp [Mult, ncols_trans_cons, range_one, h0]

lemma trans_column (X : Mat) (f : List ℚ → ℚ) (hX : X ≠ []) :
    Trans (X.map (fun r => [f r])) = [X.map f] := by
  obtain ⟨x, xs, rfl⟩ := List.exists_cons_of_ne_nil hX
  simp [Trans, ncols, col, range_one, List.map_map, Function.comp_def]

lemma ncols_trans (X : Mat) (hc : 0 < ncols X) : ncols (Trans X) = X.length := by
  obtain ⟨k, hk⟩ : ∃ k, ncols X = k + 1 := ⟨ncols X - 1, by omega⟩
  rw [Trans, hk, List.range_succ_eq_map, List.map_cons]
  simp [ncols, col]

lemma col_trans (X : Mat) (j : ℕ) (n : ℕ) (hj : j < X.length)
    (hw : ∀ r ∈ X, r.length = n) (hn : ncols X = n) :
    col (Trans X) j = X.getD j [] := by
  rw [Trans, col, List.map_map]
  have h1 : ∀ k, ((fun r => r.getD j 0) ∘ col X) k = (X.getD j []).getD k 0 := by
    intro k
    simp only [Function.comp_def, col]
    exact getD_map_lt _ _ _ hj _ _
  rw [List.map_congr_left (fun k _ => h1 k), hn]
  have hlen : (X.getD j []).length = n := hw _ (getD_lt_mem X j hj [])
  rw [← hlen]
  exact range_getD _ 0

lemma mult_row_trans (v : List ℚ) (X : Mat) (hv : v ≠ [])
    (hw : ∀ r ∈ X, r.length = v.length) :
    Mult [v] (Trans X) = [X.map (fun r => dot v r)] := by
  cases X with
  | nil => simp [Mult, Trans, ncols, col]
  | cons x0 xs =>
    have hn : ncols (x0 :: xs) = v.length := by
      simp [ncols, hw x0 (by simp)]
    have hc : 0 < ncols (x0 :: xs) := by
      rw [hn]
      exact List.length_pos.mpr hv
    have hT : ncols (Trans (x0 :: xs)) = (x0 :: xs).length := ncols_trans _ hc
    rw [Mult, List.map_cons, List.map_nil, hT]
    congr 1
    have hcol : ∀ j ∈ List.range (x0 :: xs).length,
        dot v (col (Trans (x0 :: xs)) j) = dot v ((x0 :: xs).getD j []) := by
      intro j hj
      rw [col_trans _ _ v.length (List.mem_range.mp hj) hw hn]
    rw [List.map_congr_left hcol]
    exact range_map_getD (x0 :: xs) [] (fun r => dot v r)

lemma zipWith_map_same {α β γ δ : Type*} (h : β → γ → δ) (f : α → β)
    (g : α → γ) (l : List α) :
    List.zipWith h (l.map f) (l.map g) = l.map (fun x => h (f x) (g x)) := by
  rw [List.zipWith_map]
  exact List.zipWith_same _ l

lemma dot_map_map {α β : Type*} (f : α → ℚ) (g : β → ℚ) (a : List α)
    (b : List β) :
    dot (a.map f) (b.map g) = (List.zipWith (fun x y => f x * g y) a b).sum := by
  rw [dot, List.zipWith_map]

lemma sum_zipWith_sub {α β : Type*} (f g : α → β → ℚ) :
    ∀ (l₁ : List α) (l₂ : List β),
      (List.zipWith f l₁ l₂).sum - (List.zipWith g l₁ l₂).sum =
        (List.zipWith (fun a b => f a b - g a b) l₁ l₂).sum
  | [], _ => by simp
  | _ :: _, [] => by simp
  | a :: t, b :: s => by
    simp only [List.zipWith_cons_cons, List.sum_cons]
    have ih := sum_zipWith_sub f g t s
    ring_nf
    ring_nf at ih
    linarith

lemma getD_set_head_zero (a : ℚ) (t : List ℚ) (j : ℕ) :
    ((a :: t).set 0 0).getD j 0 = if j = 0 then 0 else (a :: t).getD j 0 := by
  cases j <;> simp

lemma set_head_zero_sq_sum (v : List ℚ) (hv : v ≠ []) :
    ((v.set 0 0).map powTwo).sum = (v.tail.map powTwo).sum := by
  obtain ⟨a, t, rfl⟩ := List.exists_cons_of_ne_nil hv
  simp [powTwo]

/-! ### Closed forms of the two cost functions -/

lemma linearCost_j (rg : Regression) (lam : ℚ) (cg : Bool)
    (hX : rg.X ≠ []) (hT : rg.Theta ≠ []) :
    (linearRegCostFunction rg lam cg).1 =
      (List.zipWith (fun p a => powTwo (p - a))
          (rg.X.map (fun r => dot r rg.Theta)) rg.Y).sum /
        (2 * (rg.X.length : ℚ)) +
      lam / (2 * (rg.X.length : ℚ)) * ((rg.Theta.tail).map powTwo).sum := by
  unfold linearRegCostFunction
  dsimp only
  rw [mult_single_col _ _ hT, trans_column _ _ hX]
  simp [Sub, Apply, SumAll, List.map_zipWith]

lemma grad_shape (e : List ℚ) (X : Mat) (v : List ℚ) (c d : ℚ)
    (hn : ncols X = v.length) :
    SumMat (MultBy (Mult [e] X) c) (MultBy [v] d) =
      [(List.range v.length).map
        (fun j => dot e (col X j) * c + v.getD j 0 * d)] := by
  simp only [Mult, MultBy, SumMat, List.map_cons, List.map_nil, List.map_map,
    List.zipWith_cons_cons, List.zipWith_nil_right]
  rw [hn, ← range_map_getD v 0 (fun x => x * d), zipWith_map_same]
  simp [Function.comp_def]

lemma ncols_eq_theta (rg : Regression) (hX : rg.X ≠ [])
    (hw : ∀ r ∈ rg.X, r.length = rg.Theta.length) :
    ncols rg.X = rg.Theta.length := by
  obtain ⟨x0, xs, h⟩ := List.exists_cons_of_ne_nil hX
  rw [h, ncols, List.headD_cons]
  exact hw x0 (by rw [h]; exact List.mem_cons_self x0 xs)

lemma linearCost_grad (rg : Regression) (lam : ℚ) (cg : Bool)
    (hX : rg.X ≠ []) (hT : rg.Theta ≠ [])
    (hw : ∀ r ∈ rg.X, r.length = rg.Theta.length) :
    (linearRegCostFunction rg lam cg).2 =
      [[(List.range rg.Theta.length).map (fun j =>
          dot (List.zipWith (fun p a => p - a)
              (rg.X.map (fun r => dot r rg.Theta)) rg.Y) (col rg.X j) *
            (1 / (rg.X.length : ℚ)) +
          rg.Theta.getD j 0 * (lam / (rg.X.length : ℚ)))]] := by
  unfold linearRegCostFunction
  dsimp only
  rw [mult_single_col _ _ hT, trans_column _ _ hX]
  have hsub : Sub [rg.X.map (fun r => dot r rg.Theta)] [rg.Y] =
      [List.zipWith (fun p a => p - a)
        (rg.X.map (fun r => dot r rg.Theta)) rg.Y] := by
    simp [Sub]
  rw [hsub, grad_shape _ _ _ _ _ (ncols_eq_theta rg hX hw)]

lemma mult_apply_trans (Yv w : List ℚ) (f : ℚ → ℚ) (hw : w ≠ []) :
    Mult (Apply [Yv] f) (Trans [w]) = [[dot (Yv.map f) w]] := by
  have h : Apply [Yv] f = [Yv.map f] := by simp [Apply]
  rw [h, mult_single_col _ _ hw]
  simp

lemma logisticCost_j (sig lg : ℚ → ℚ) (rg : Regression) (lam : ℚ) (cg : Bool)
    (hX : rg.X ≠ []) (hT : rg.Theta ≠ [])
    (hw : ∀ r ∈ rg.X, r.length = rg.Theta.length) :
    (logisticRegCostFunction sig lg rg lam cg).1 =
      (List.zipWith (fun yv pv => -yv * lg pv - (1 - yv) * lg (1 - pv))
          rg.Y (rg.X.map (fun r => sig (dot rg.Theta r)))).sum /
        (rg.X.length : ℚ) +
      lam / (2 * (rg.X.length : ℚ)) * ((rg.Theta.set 0 0).map powTwo).sum := by
  unfold logisticRegCostFunction
  dsimp only
  rw [mult_row_trans _ _ hT hw]
  have hApply : Apply [rg.X.map (fun r => dot rg.Theta r)] sig =
      [rg.X.map (fun r => sig (dot rg.Theta r))] := by
    simp [Apply, List.map_map, Function.comp_def]
  rw [hApply]
  have hPne : rg.X.map (fun r => sig (dot rg.Theta r)) ≠ [] := by
    simpa using hX
  have hA1 : Apply [rg.X.map (fun r => sig (dot rg.Theta r))] lg =
      [(rg.X.map (fun r => sig (dot rg.Theta r))).map lg] := by
    simp [Apply]
  have hA2 : Apply [rg.X.map (fun r => sig (dot rg.Theta r))] oneMinus =
      [(rg.X.map (fun r => sig (dot rg.Theta r))).map oneMinus] := by
    simp [Apply]
  have hA3 : Apply [(rg.X.map (fun r => sig (dot rg.Theta r))).map oneMinus] lg =
      [((rg.X.map (fun r => sig (dot rg.Theta r))).map oneMinus).map lg] := by
    simp [Apply]
  rw [hA1, hA2, hA3, mult_apply_trans _ _ _ (by simpa using hPne),
    mult_apply_trans _ _ _ (by simpa using hPne)]
  simp only [List.getD_cons_zero]
  rw [dot_map_map, List.map_map, dot_map_map, sum_zipWith_sub]
  have hreg : SumAll (Apply [rg.Theta.set 0 0] powTwo) =
      ((rg.Theta.set 0 0).map powTwo).sum := by
    simp [Apply, SumAll]
  rw [hreg]
  congr 2

lemma logisticCost_grad (sig lg : ℚ → ℚ) (rg : Regression) (lam : ℚ) (cg : Bool)
    (hX : rg.X ≠ []) (hT : rg.Theta ≠ [])
    (hw : ∀ r ∈ rg.X, r.length = rg.Theta.length) :
    (logisticRegCostFunction sig lg rg lam cg).2 =
      [[(List.range rg.Theta.length).map (fun j =>
          dot (List.zipWith (fun p a => p - a)
              (rg.X.map (fun r => sig (dot rg.Theta r))) rg.Y) (col rg.X j) *
            (1 / (rg.X.length : ℚ)) +
          (if j = 0 then 0
           else rg.Theta.getD j 0 * (lam / (rg.X.length : ℚ))))]] := by
  unfold logisticRegCostFunction
  dsimp only
  rw [mult_row_trans _ _ hT hw]
  have hApply : Apply [rg.X.map (fun r => dot rg.Theta r)] sig =
      [rg.X.map (fun r => sig (dot rg.Theta r))] := by
    simp [Apply, List.map_map, Function.comp_def]
  rw [hApply]
  have hsub : Sub [rg.X.map (fun r => sig (dot rg.Theta r))] [rg.Y] =
      [List.zipWith (fun p a => p - a)
        (rg.X.map (fun r => sig (dot rg.Theta r))) rg.Y] := by
    simp [Sub]
  have hn : ncols rg.X = (rg.Theta.set 0 0).length := by
    rw [List.length_set]
    exact ncols_eq_theta rg hX hw
  rw [hsub, grad_shape _ _ _ _ _ hn, List.length_set]
  obtain ⟨a, t, hat⟩ := List.exists_cons_of_ne_nil hT
  congr 1
  congr 1
  apply List.map_congr_left
  intro j hj
  congr 1
  rw [hat, getD_set_head_zero]
  split <;> simp

lemma costFunction_ok (sig lg : ℚ → ℚ) (rg : Regression) (lam : ℚ) (cg : Bool)
    (hY : rg.Y.length = rg.X.length) (hX : rg.X ≠ [])
    (hw : ∀ r ∈ rg.X, r.length = rg.Theta.length) :
    CostFunction sig lg rg lam cg =
      if rg.LinearReg then
        CFResult.ok (linearRegCostFunction rg lam cg).1
          (linearRegCostFunction rg lam cg).2
      else
        CFResult.ok (logisticRegCostFunction sig lg rg lam cg).1
          (logisticRegCostFunction sig lg rg lam cg).2 := by
  obtain ⟨x0, xs, hx⟩ := List.exists_cons_of_ne_nil hX
  unfold CostFunction
  rw [if_neg (by omega : ¬rg.Y.length ≠ rg.X.length), hx]
  have hx0 : rg.Theta.length = x0.length :=
    (hw x0 (by rw [hx]; exact List.mem_cons_self x0 xs)).symm
  dsimp only
  rw [if_neg (by omega : ¬rg.Theta.length ≠ x0.length)]

/-- C2: for every linear model satisfying the dimension preconditions and
every lambda, the cost returned by `CostFunction` is the mean squared error —
the sum over rows of `(prediction − actual)²` divided by `2·m` — plus
`lambda/(2·m)` times the sum of squares of `Theta[1:]`: the bias parameter
`Theta[0]` is excluded from the regularization term of the linear cost. -/
theorem linear_cost_formula (sig lg : ℚ → ℚ) (rg : Regression) (lam : ℚ)
    (cg : Bool) (hY : rg.Y.length = rg.X.length) (hX : rg.X ≠ [])
    (hT : rg.Theta ≠ []) (hw : ∀ r ∈ rg.X, r.length = rg.Theta.length)
    (hlin : rg.LinearReg = true) :
    CostFunction sig lg rg lam cg =
      CFResult.ok
        ((List.zipWith (fun p a => powTwo (p - a))
            (rg.X.map (fun r => dot r rg.Theta)) rg.Y).sum /
          (2 * (rg.X.length : ℚ)) +
         lam / (2 * (rg.X.length : ℚ)) * ((rg.Theta.tail).map powTwo).sum)
        ((linearRegCostFunction rg lam cg).2) := by
  rw [costFunction_ok sig lg rg lam cg hY hX hw, if_pos hlin,
    linearCost_j rg lam cg hX hT]

/-- C2 witness. -/
theorem linear_cost_formula_witness :
    (((⟨[[1]], [1], [2], true⟩ : Regression).Y.length =
        (⟨[[1]], [1], [2], true⟩ : Regression).X.length) ∧
      (⟨[[1]], [1], [2], true⟩ : Regression).X ≠ [] ∧
      (⟨[[1]], [1], [2], true⟩ : Regression).Theta ≠ [] ∧
      (∀ r ∈ (⟨[[1]], [1], [2], true⟩ : Regression).X,
        r.length = (⟨[[1]], [1], [2], true⟩ : Regression).Theta.length) ∧
      (⟨[[1]], [1], [2], true⟩ : Regression).LinearReg = true) ∧
    CostFunction id id ⟨[[1]], [1], [2], true⟩ 3 false =
      CFResult.ok
        ((List.zipWith (fun p a => powTwo (p - a))
            ((⟨[[1]], [1], [2], true⟩ : Regression).X.map
              (fun r => dot r (⟨[[1]], [1], [2], true⟩ : Regression).Theta))
            (⟨[[1]], [1], [2], true⟩ : Regression).Y).sum /
          (2 * ((⟨[[1]], [1], [2], true⟩ : Regression).X.length : ℚ)) +
         3 / (2 * ((⟨[[1]], [1], [2], true⟩ : Regression).X.length : ℚ)) *
          (((⟨[[1]], [1], [2], true⟩ : Regression).Theta.tail).map powTwo).sum)
        ((linearRegCostFunction ⟨[[1]], [1], [2], true⟩ 3 false).2) :=
  ⟨⟨by decide, by decide, by decide, by decide, by decide⟩,
    linear_cost_formula id id ⟨[[1]], [1], [2], true⟩ 3 false (by decide)
      (by decide) (by decide) (by decide) (by decide)⟩

/-- C1: for every model satisfying the dimension preconditions and every
lambda, the regularization addend of the gradient differs between the two
variants.  The linear gradient's entry `j` is the error-gradient term plus
`Theta[j]·(lambda/m)` for every `j`, including `j = 0`, using the unmodified
`Theta`; the logistic gradient's entry `j` carries the same addend for
`j ≠ 0` but exactly 0 at `j = 0`, because `Theta[0]` is zeroed before the
addend is formed. -/
theorem gradient_reg_asymmetry (sig lg : ℚ → ℚ) (rg : Regression) (lam : ℚ)
    (cg : Bool) (hX : rg.X ≠ []) (hT : rg.Theta ≠ [])
    (hw : ∀ r ∈ rg.X, r.length = rg.Theta.length) :
    (linearRegCostFunction rg lam cg).2 =
      [[(List.range rg.Theta.length).map (fun j =>
          dot (List.zipWith (fun p a => p - a)
              (rg.X.map (fun r => dot r rg.Theta)) rg.Y) (col rg.X j) *
            (1 / (rg.X.length : ℚ)) +
          rg.Theta.getD j 0 * (lam / (rg.X.length : ℚ)))]] ∧
    (logisticRegCostFunction sig lg rg lam cg).2 =
      [[(List.range rg.Theta.length).map (fun j =>
          dot (List.zipWith (fun p a => p - a)
              (rg.X.map (fun r => sig (dot rg.Theta r))) rg.Y) (col rg.X j) *
            (1 / (rg.X.length : ℚ)) +
          (if j = 0 then 0
           else rg.Theta.getD j 0 * (lam / (rg.X.length : ℚ))))]] :=
  ⟨linearCost_grad rg lam cg hX hT hw,
    logisticCost_grad sig lg rg lam cg hX hT hw⟩

/-- C1 witness. -/
theorem gradient_reg_asymmetry_witness :
    ((⟨[[1]], [1], [2], true⟩ : Regression).X ≠ [] ∧
      (⟨[[1]], [1], [2], true⟩ : Regression).Theta ≠ [] ∧
      (∀ r ∈ (⟨[[1]], [1], [2], true⟩ : Regression).X,
        r.length = (⟨[[1]], [1], [2], true⟩ : Regression).Theta.length)) ∧
    ((linearRegCostFunction ⟨[[1]], [1], [2], true⟩ 3 false).2 =
      [[(List.range (⟨[[1]], [1], [2], true⟩ : Regression).Theta.length).map
          (fun j =>
            dot (List.zipWith (fun p a => p - a)
                ((⟨[[1]], [1], [2], true⟩ : Regression).X.map
                  (fun r => dot r (⟨[[1]], [1], [2], true⟩ : Regression).Theta))
                (⟨[[1]], [1], [2], true⟩ : Regression).Y)
              (col (⟨[[1]], [1], [2], true⟩ : Regression).X j) *
              (1 / ((⟨[[1]], [1], [2], true⟩ : Regression).X.length : ℚ)) +
            (⟨[[1]], [1], [2], true⟩ : Regression).Theta.getD j 0 *
              (3 / ((⟨[[1]], [1], [2], true⟩ : Regression).X.length : ℚ)))]] ∧
    (logisticRegCostFunction id id ⟨[[1]], [1], [2], true⟩ 3 false).2 =
      [[(List.range (⟨[[1]], [1], [2], true⟩ : Regression).Theta.length).map
          (fun j =>
            dot (List.zipWith (fun p a => p - a)
                ((⟨[[1]], [1], [2], true⟩ : Regression).X.map
                  (fun r => id (dot (⟨[[1]], [1], [2], true⟩ : Regression).Theta r)))
                (⟨[[1]], [1], [2], true⟩ : Regression).Y)
              (col (⟨[[1]], [1], [2], true⟩ : Regression).X j) *
              (1 / ((⟨[[1]], [1], [2], true⟩ : Regression).X.length : ℚ)) +
            (if j = 0 then 0
             else (⟨[[1]], [1], [2], true⟩ : Regression).Theta.getD j 0 *
              (3 / ((⟨[[1]], [1], [2], true⟩ : Regression).X.length : ℚ))))]]) :=
  ⟨⟨by decide, by decide, by decide⟩,
    gradient_reg_asymmetry id id ⟨[[1]], [1], [2], true⟩ 3 false (by decide)
      (by decide) (by decide)⟩

/-- C3: for every logistic model satisfying the dimension preconditions and
every lambda, the cost returned by `CostFunction` is the cross-entropy
`(1/m)·Σ (−yᵢ·log pᵢ − (1−yᵢ)·log(1−pᵢ))` plus `lambda/(2·m)` times the sum
of squares of a copy of `Theta` whose position 0 is set to zero before
squaring; that sum equals the sum of squares of `Theta.tail`, so the logistic
cost's regularization term is independent of `Theta[0]`. -/
theorem logistic_cost_formula (sig lg : ℚ → ℚ) (rg : Regression) (lam : ℚ)
    (cg : Bool) (hY : rg.Y.length = rg.X.length) (hX : rg.X ≠ [])
    (hT : rg.Theta ≠ []) (hw : ∀ r ∈ rg.X, r.length = rg.Theta.length)
    (hlog : rg.LinearReg = false) :
    CostFunction sig lg rg lam cg =
      CFResult.ok
        ((List.zipWith (fun yv pv => -yv * lg pv - (1 - yv) * lg (1 - pv))
            rg.Y (rg.X.map (fun r => sig (dot rg.Theta r)))).sum /
          (rg.X.length : ℚ) +
         lam / (2 * (rg.X.length : ℚ)) *
          ((rg.Theta.set 0 0).map powTwo).sum)
        ((logisticRegCostFunction sig lg rg lam cg).2) ∧
    ((rg.Theta.set 0 0).map powTwo).sum = ((rg.Theta.tail).map powTwo).sum := by
  refine ⟨?_, set_head_zero_sq_sum rg.Theta hT⟩
  rw [costFunction_ok sig lg rg lam cg hY hX hw, if_neg (by simp [hlog]),
    logisticCost_j sig lg rg lam cg hX hT hw]

/-- C3 witness. -/
theorem logistic_cost_formula_witness :
    (((⟨[[1]], [1], [2], false⟩ : Regression).Y.length =
        (⟨[[1]], [1], [2], false⟩ : Regression).X.length) ∧
      (⟨[[1]], [1], [2], false⟩ : Regression).X ≠ [] ∧
      (⟨[[1]], [1], [2], false⟩ : Regression).Theta ≠ [] ∧
      (∀ r ∈ (⟨[[1]], [1], [2], false⟩ : Regression).X,
        r.length = (⟨[[1]], [1], [2], false⟩ : Regression).Theta.length) ∧
      (⟨[[1]], [1], [2], false⟩ : Regression).LinearReg = false) ∧
    (CostFunction id id ⟨[[1]], [1], [2], false⟩ 3 false =
      CFResult.ok
        ((List.zipWith (fun yv pv => -yv * id pv - (1 - yv) * id (1 - pv))
            (⟨[[1]], [1], [2], false⟩ : Regression).Y
            ((⟨[[1]], [1], [2], false⟩ : Regression).X.map
              (fun r => id (dot (⟨[[1]], [1], [2], false⟩ : Regression).Theta r)))).sum /
          ((⟨[[1]], [1], [2], false⟩ : Regression).X.length : ℚ) +
         3 / (2 * ((⟨[[1]], [1], [2], false⟩ : Regression).X.length : ℚ)) *
          (((⟨[[1]], [1], [2], false⟩ : Regression).Theta.set 0 0).map powTwo).sum)
        ((logisticRegCostFunction id id ⟨[[1]], [1], [2], false⟩ 3 false).2) ∧
    (((⟨[[1]], [1], [2], false⟩ : Regression).Theta.set 0 0).map powTwo).sum =
      (((⟨[[1]], [1], [2], false⟩ : Regression).Theta.tail).map powTwo).sum) :=
  ⟨⟨by decide, by decide, by decide, by decide, by decide⟩,
    logistic_cost_formula id id ⟨[[1]], [1], [2], false⟩ 3 false (by decide)
      (by decide) (by decide) (by decide) (by decide)⟩

/-- C5: the claim says `CostFunction` reports every dimension mismatch as a
descriptive error and never panics, "including an empty dataset".  The code
contradicts this: with `X = []` and `Y = []` both length checks pass
(`0 = 0`) and line 39 evaluates `len(rg.X[0])` on the empty slice, a Go
runtime panic (index out of range).  This theorem pins the failing input. -/
theorem costFunction_empty_panics (sig lg : ℚ → ℚ) (th : List ℚ) (b : Bool)
    (lam : ℚ) (cg : Bool) :
    CostFunction sig lg ⟨[], [], th, b⟩ lam cg = CFResult.panic := rfl

/-- C6: `Accuracy` counts a row as correct only when the prediction is
≥ 0.5 and the label is 1; consequently on every non-empty model whose labels
are all 0 it returns exactly 0, for every prediction function and every
`Theta`. -/
theorem accuracy_all_zero_labels (sig : ℚ → ℚ) (rg : Regression)
    (hX : rg.X ≠ []) (h0 : ∀ y ∈ rg.Y, y = 0) :
    Accuracy sig rg = 0 := by
  unfold Accuracy
  have hn : accuracyNumerator sig rg = 0 := by
    unfold accuracyNumerator
    rw [List.countP_eq_zero]
    intro p hp
    obtain ⟨p1, p2⟩ := p
    have hy : p2 = 0 := h0 p2 (List.of_mem_zip hp).2
    simp [hy]
  rw [hn]
  simp

/-- C6 witness. -/
theorem accuracy_all_zero_labels_witness :
    ((⟨[[1]], [0], [5], false⟩ : Regression).X ≠ [] ∧
      (∀ y ∈ (⟨[[1]], [0], [5], false⟩ : Regression).Y, y = 0)) ∧
    Accuracy id ⟨[[1]], [0], [5], false⟩ = 0 :=
  ⟨⟨by decide, by decide⟩,
    accuracy_all_zero_labels id ⟨[[1]], [0], [5], false⟩ (by decide)
      (by decide)⟩

/-- C10: on every model with zero rows, the numerator (correct count) and the
denominator (row count) of `Accuracy`'s final division are both 0: the Go
code computes `0.0/0.0` — which is NaN in IEEE 754 — with no guard on the row
count. -/
theorem accuracy_empty_zero_div (sig : ℚ → ℚ) (Yv th : List ℚ) (b : Bool) :
    accuracyNumerator sig ⟨[], Yv, th, b⟩ = 0 ∧
    (⟨[], Yv, th, b⟩ : Regression).X.length = 0 ∧
    Accuracy sig ⟨[], Yv, th, b⟩ =
      (accuracyNumerator sig ⟨[], Yv, th, b⟩ : ℚ) /
        ((⟨[], Yv, th, b⟩ : Regression).X.length : ℚ) := by
  refine ⟨?_, rfl, rfl⟩
  unfold accuracyNumerator
  simp

lemma zip_eq_range_map (A : Mat) (B : List ℚ) (h : B.length = A.length) :
    A.zip B = (List.range A.length).map (fun i => (A.getD i [], B.getD i 0)) := by
  conv_lhs => rw [← range_getD A []]
  conv_lhs =>
    rw [show B = (List.range A.length).map (fun i => B.getD i 0) from by
      rw [← h]; exact (range_getD B 0).symm]
  rw [List.zip_map']

lemma map_indexOf_nodup (l : List ℕ) (h : l.Nodup) :
    l.map (fun v => l.indexOf v) = List.range l.length := by
  apply List.ext_getElem (by simp)
  intro i h1 h2
  simp only [List.getElem_map, List.getElem_range]
  exact List.indexOf_getElem h i (by simpa using h1)

/-- C9: for every model and every permutation `perm` of the row indices, the
shuffled copy's `(X row, Y label)` pairs are a permutation of the original's:
`X` and `Y` move together under the same index map, so the multiset of pairs
is preserved. -/
theorem shuffle_preserves_pairs (perm : List ℕ) (rg : Regression)
    (hp : perm.Perm (List.range rg.X.length))
    (hY : rg.Y.length = rg.X.length) :
    ((shuffle perm rg).X.zip (shuffle perm rg).Y).Perm (rg.X.zip rg.Y) := by
  have hlen : perm.length = rg.X.length := by simpa using hp.length_eq
  have hnodup : perm.Nodup := hp.nodup_iff.mpr (List.nodup_range _)
  unfold shuffle
  dsimp only
  rw [hY, List.zip_map', zip_eq_range_map rg.X rg.Y hY]
  have hsplit :
      (List.range rg.X.length).map
        (fun v => (rg.X.getD (perm.indexOf v) [], rg.Y.getD (perm.indexOf v) 0)) =
      ((List.range rg.X.length).map (fun v => perm.indexOf v)).map
        (fun i => (rg.X.getD i [], rg.Y.getD i 0)) := by
    rw [List.map_map]
    rfl
  rw [hsplit]
  have hidx : ((List.range rg.X.length).map (fun v => perm.indexOf v)).Perm
      (List.range rg.X.length) := by
    have h1 : (List.range rg.X.length).Perm perm := hp.symm
    have h2 := h1.map (fun v => perm.indexOf v)
    rw [map_indexOf_nodup perm hnodup, hlen] at h2
    exact h2
  exact hidx.map (fun i => (rg.X.getD i [], rg.Y.getD i 0))

/-- C9 witness. -/
theorem shuffle_preserves_pairs_witness :
    (([1, 0] : List ℕ).Perm
        (List.range (⟨[[1], [2]], [3, 4], [], false⟩ : Regression).X.length) ∧
      (⟨[[1], [2]], [3, 4], [], false⟩ : Regression).Y.length =
        (⟨[[1], [2]], [3, 4], [], false⟩ : Regression).X.length) ∧
    ((shuffle [1, 0] ⟨[[1], [2]], [3, 4], [], false⟩).X.zip
        (shuffle [1, 0] ⟨[[1], [2]], [3, 4], [], false⟩).Y).Perm
      ((⟨[[1], [2]], [3, 4], [], false⟩ : Regression).X.zip
        (⟨[[1], [2]], [3, 4], [], false⟩ : Regression).Y) :=
  ⟨⟨by decide, by decide⟩,
    shuffle_preserves_pairs [1, 0] ⟨[[1], [2]], [3, 4], [], false⟩ (by decide)
      (by decide)⟩

lemma mcStep_eq_selStep (fm : Regression → ℚ → ℕ → List ℚ) (sig lg : ℚ → ℚ)
    (td : Regression) (i : List ℚ) (s : MCState) (lam : ℚ) :
    mcStep fm sig lg td i s lam = selStep s lam (runTrial fm sig lg td i lam) := by
  by_cases h : Accuracy sig { td with Theta := trialTheta fm td i lam } > s.bestA <;>
    simp [mcStep, selStep, runTrial, trialTheta, h]

lemma mcLoop_sel (fm : Regression → ℚ → ℕ → List ℚ) (sig lg : ℚ → ℚ)
    (td : Regression) (i : List ℚ) :
    ∀ (L : List ℚ) (s : MCState),
      ((L.foldl (mcStep fm sig lg td i) s).bestLambda,
        (L.foldl (mcStep fm sig lg td i) s).bestA) =
      L.foldl
        (fun b lam =>
          if trialAccuracy fm sig td i lam > b.2
          then (lam, trialAccuracy fm sig td i lam) else b)
        (s.bestLambda, s.bestA)
  | [], s => rfl
  | lam :: L, s => by
    rw [List.foldl_cons, List.foldl_cons,
      mcLoop_sel fm sig lg td i L (mcStep fm sig lg td i s lam)]
    have hstep : ((mcStep fm sig lg td i s lam).bestLambda,
        (mcStep fm sig lg td i s lam).bestA) =
        (if trialAccuracy fm sig td i lam > s.bestA
         then (lam, trialAccuracy fm sig td i lam)
         else (s.bestLambda, s.bestA)) := by
      unfold mcStep trialAccuracy trialTheta
      by_cases h :
          s.bestA < Accuracy sig { td with Theta := fm { td with Theta := i } lam 10 } <;>
        simp [h]
    rw [hstep]

set_option maxRecDepth 4000 in
/-- C4: the winning lambda of `MinimizeCost` — the one the final full-budget
refit uses — is `selectByAccuracy` applied to the per-candidate
`(lambda, accuracy)` pairs: a function of the accuracies alone, with strict
`>` comparison so that ties keep the earlier candidate (third conjunct).  The
best-cost tracking (`bestJ`) influences neither it nor the returned `lambda`;
the Go body in fact never assigns the named return `lambda`, so the returned
value is constantly its zero value 0 (second conjunct). -/
theorem minimize_cost_selects_by_accuracy (fm : Regression → ℚ → ℕ → List ℚ)
    (sig lg : ℚ → ℚ) (td : Regression) (initTheta : List ℚ) (perm : List ℕ)
    (orig : Regression) (maxIters : ℕ) (suffleData : Bool) :
    (mcLoop fm sig lg td initTheta).bestLambda =
      selectByAccuracy
        (mcLambdas.map (fun lam => (lam, trialAccuracy fm sig td initTheta lam))) ∧
    (MinimizeCost fm sig lg perm orig maxIters suffleData).lambda = 0 ∧
    (∀ (ts : List (ℚ × ℚ)) (lam a : ℚ),
      selectByAccuracy (ts ++ [(lam, a)]) =
        if a > (bestByAccuracy ts).2 then lam else selectByAccuracy ts) := by
  refine ⟨?_, rfl, ?_⟩
  · have h := mcLoop_sel fm sig lg td initTheta mcLambdas ⟨⊤, 0, 0, initTheta⟩
    unfold mcLoop selectByAccuracy bestByAccuracy
    rw [List.foldl_map]
    exact congrArg Prod.fst h
  · intro ts lam a
    unfold selectByAccuracy bestByAccuracy
    rw [List.foldl_append, List.foldl_cons, List.foldl_nil]
    exact apply_ite Prod.fst _ _ _

/-- C7: the candidates of `MinimizeCost` are exactly the fixed list
`{0, 0.001, 0.003, 0.01, 0.03, 0.1, 0.3, 1, 3, 10, 30, 100, 300}`, processed
in list order (first conjunct); when the model's `Theta` is the initial zero
vector, the candidate loop is the in-order fold over that list of independent
trials, each of which resets `Theta` to the zero vector, runs the optimizer
with the fixed budget of 10 iterations, and evaluates the plain cost (no
gradient) and `Accuracy` on the same training data (second conjunct,
`runTrial`); the loop's `initTheta` is the incoming model's `Theta` whether
or not shuffling occurred (third conjunct). -/
theorem minimize_cost_candidate_trials (fm : Regression → ℚ → ℕ → List ℚ)
    (sig lg : ℚ → ℚ) (td : Regression) (k : ℕ)
    (hz : td.Theta = List.replicate k 0) :
    mcLambdas = [0, 0.001, 0.003, 0.01, 0.03, 0.1, 0.3, 1, 3, 10, 30, 100, 300] ∧
    mcLoop fm sig lg td td.Theta =
      mcLambdas.foldl
        (fun s lam =>
          selStep s lam (runTrial fm sig lg td (List.replicate k 0) lam))
        ⟨⊤, 0, 0, List.replicate k 0⟩ ∧
    (∀ (perm : List ℕ) (orig : Regression) (suffle : Bool),
      (if suffle then shuffle perm orig else orig).Theta = orig.Theta) := by
  refine ⟨by norm_num [mcLambdas], ?_, ?_⟩
  · rw [hz]
    unfold mcLoop
    have hfun : mcStep fm sig lg td (List.replicate k 0) =
        fun s lam =>
          selStep s lam (runTrial fm sig lg td (List.replicate k 0) lam) := by
      funext s lam
      exact mcStep_eq_selStep fm sig lg td (List.replicate k 0) s lam
    rw [hfun]
  · intro perm orig suffle
    cases suffle <;> rfl

/-- C7 witness. -/
theorem minimize_cost_candidate_trials_witness :
    ((⟨[[1]], [1], [0], false⟩ : Regression).Theta = List.replicate 1 0) ∧
    (mcLambdas =
        [0, 0.001, 0.003, 0.01, 0.03, 0.1, 0.3, 1, 3, 10, 30, 100, 300] ∧
      mcLoop (fun _ _ _ => [0]) id id ⟨[[1]], [1], [0], false⟩
          (⟨[[1]], [1], [0], false⟩ : Regression).Theta =
        mcLambdas.foldl
          (fun s lam =>
            selStep s lam
              (runTrial (fun _ _ _ => [0]) id id ⟨[[1]], [1], [0], false⟩
                (List.replicate 1 0) lam))
          ⟨⊤, 0, 0, List.replicate 1 0⟩ ∧
      (∀ (perm : List ℕ) (orig : Regression) (suffle : Bool),
        (if suffle then shuffle perm orig else orig).Theta = orig.Theta)) :=
  ⟨by decide,
    minimize_cost_candidate_trials (fun _ _ _ => [0]) id id
      ⟨[[1]], [1], [0], false⟩ 1 (by decide)⟩

lemma storeFold_shape (fm : Regression → ℚ → ℕ → List ℚ) (sig lg : ℚ → ℚ)
    (tdX : Mat) (tdY : List ℚ) (lin : Bool) (i : List ℚ) :
    ∀ (L : List ℚ) (s : List (List ℚ) × WithTop ℚ × ℚ × ℚ),
      (∃ v, s.1 = [v]) →
      ∃ w, (L.foldl (mcStepStore fm sig lg tdX tdY lin 0 i) s).1 = [w]
  | [], _, hs => hs
  | lam :: L, s, hs => by
    rw [List.foldl_cons]
    apply storeFold_shape fm sig lg tdX tdY lin i L
    obtain ⟨v, hv⟩ := hs
    refine ⟨fm ⟨tdX, tdY, i, lin⟩ lam 10, ?_⟩
    unfold mcStepStore
    rw [hv]
    simp only [List.set_cons_zero, List.getD_cons_zero, apply_ite Prod.fst,
      ite_self]

/-- C8: after `MinimizeCost` completes, the array backing the original
model's `Theta` holds exactly the `Theta` produced by the final full-budget
optimizer run — also when the shuffle flag made a row-permuted working copy
the trained model, since the copy shares the original's `Theta` slice and the
spec's optimizer contract refines it in place (see `MinimizeCostStore`). -/
theorem minimize_cost_theta_writeback (fm : Regression → ℚ → ℕ → List ℚ)
    (sig lg : ℚ → ℚ) (perm : List ℕ) (orig : Regression) (maxIters : ℕ)
    (suffleData : Bool) :
    (MinimizeCostStore fm sig lg perm orig maxIters suffleData).store.getD
        (MinimizeCostStore fm sig lg perm orig maxIters suffleData).origRef
        [] =
      (MinimizeCostStore fm sig lg perm orig maxIters
          suffleData).finalTheta := by
  unfold MinimizeCostStore
  dsimp only
  obtain ⟨w, hw⟩ := storeFold_shape fm sig lg
    (if suffleData then shuffle perm orig else orig).X
    (if suffleData then shuffle perm orig else orig).Y
    (if suffleData then shuffle perm orig else orig).LinearReg
    ([orig.Theta].getD 0 []) mcLambdas ([orig.Theta], ⊤, 0, 0) ⟨orig.Theta, rfl⟩
  rw [hw]
  simp

end GoML








